import Mathlib

/-!
Verification of the workflow orchestration core
(`src/python/fedml/workflow/workflow.py`).

The file shallowly embeds the data model and the operations of the
`Workflow` class: the job registry (`add_job`), the dependency-graph
construction and layered topological sort of `_compute_workflow_metadata`
(including the third-party `toposort` generator it calls), the
`metadata` property with its write-once setter, and the batch execution
loop of `run` / `_execute_and_wait` / `_kill_jobs`.

Modelling conventions:
* Python objects of the external `Job` contract are modelled as a record
  carrying the `name` attribute together with an object-identity tag
  `oid`; equality of two `Job` values is Python object equality.
* Python dicts are insertion-ordered association lists; Python sets are
  duplicate-free lists used only through membership, emptiness and
  filtering, so the particular enumeration order is immaterial.
* The `toposort` generator is embedded with an explicit fuel parameter
  equal to the length of its working list; each yielding round removes at
  least one entry, so that fuel is always sufficient (this is proved
  below as `toposortGo_fuel_irrel`).
* Real-time aspects (`time.sleep(60)`) are abstracted: a poll pass sees
  one status per job, and a batch that is neither fully finished nor
  errored is reported as still pending.
-/

deriving instance DecidableEq for Except

/-- Modelled from the spec: the external Job Handle contract of
`fedml/workflow/jobs.py` (not part of the sources under verification).
A job is opaque beyond its stable unique `name`; `oid` models Python
object identity so that two distinct job objects with equal names are
distinguishable, exactly as in the source language. -/
structure Job where
  name : String
  oid : Nat
  deriving DecidableEq, Repr

/-- Modelled from the spec: the status state machine of
`fedml/workflow/jobs.py` (not part of the sources under verification):
not-started → running → \x7bfinished, failed, undetermined\x7d.  The source
`workflow.py` only discriminates `FINISHED`, `FAILED` and `UNDETERMINED`. -/
inductive JobStatus where
  | NOT_STARTED
  | RUNNING
  | FINISHED
  | FAILED
  | UNDETERMINED
  deriving DecidableEq, Repr

/-- Node = namedtuple('Node', ['name', 'job']); equality is componentwise
(namedtuple equality), the `job` component compared by Python object
equality. -/
structure Node where
  name : String
  job : Job
  deriving DecidableEq, Repr

/-- Metadata = namedtuple('Metadata', ['nodes', 'topological_order', 'graph']).
`graph` is the defaultdict mapping a node to the set of nodes it depends
on (the read-only MappingProxyType view is immaterial to the semantics);
`topological_order` is the tuple of batches produced by `toposort`. -/
structure Metadata where
  nodes : List Node
  topological_order : List (List Node)
  graph : List (Node × List Node)
  deriving DecidableEq, Repr

/-- One value of the registry dict `self.jobs`: `{'job': job,
'dependencies': dependencies}`. -/
structure JobEntry where
  job : Job
  dependencies : List Job
  deriving DecidableEq, Repr

/-- The `Workflow` instance state: `self.name`, `self._metadata`
(initially `None`), `self._loop`, and the registry dict `self.jobs`
keyed by job name in insertion order. -/
structure Workflow where
  name : String
  _metadata : Option Metadata
  _loop : Bool
  jobs : List (String × JobEntry)
  deriving DecidableEq, Repr

/-- The error taxonomy of the source: every raise site of `workflow.py`
gets one constructor.  `duplicateJob` is the `ValueError` of `add_job`;
`metadataAlreadyComputed` is the guard of `_compute_workflow_metadata`
(line 135); `metadataImmutable` is the guard of the `metadata` setter
(line 41); `cyclicDependency` is the `CircularDependencyError` escaping
from `toposort`; `batchFailure` is the `ValueError` of
`_execute_and_wait` carrying the errored job names. -/
inductive WError where
  | duplicateJob (name : String)
  | metadataAlreadyComputed
  | metadataImmutable
  | cyclicDependency
  | batchFailure (names : List String)
  deriving DecidableEq, Repr

/-- Workflow.__init__: fresh instance with `_metadata = None` and an
empty registry. -/
def Workflow.init (name : String) (loop : Bool) : Workflow :=
  { name := name, _metadata := none, _loop := loop, jobs := [] }

/-- Lookup in the registry dict `self.jobs` (Python dict lookup by key). -/
def jobsLookup : List (String × JobEntry) → String → Option JobEntry
  | [], _ => none
  | (k, e) :: rest, n => if k = n then some e else jobsLookup rest n

/-- The `metadata` property getter: `return self._metadata if
self._metadata else None`.  A `Metadata` namedtuple has three fields and
is therefore always truthy, and `None` is falsy, so the conditional
returns the stored value when present and `None` otherwise. -/
def Workflow.metadata (w : Workflow) : Option Metadata :=
  match w._metadata with
  | some m => some m
  | none => none

/-- The `metadata` property setter: stores the value when `self._metadata`
is still `None` (falsy) and raises `ValueError("Workflow metadata cannot
be modified.")` otherwise.  A stored `Metadata` namedtuple is always
truthy, so any second set attempt fails. -/
def setMetadata (w : Workflow) (value : Metadata) : Except WError Workflow :=
  match w._metadata with
  | none => .ok { w with _metadata := some value }
  | some _ => .error .metadataImmutable

/-- Workflow.add_job: raises on a duplicate name before touching the
registry, otherwise appends `{'job': job, 'dependencies': dependencies}`
under `job.name`.  The isinstance checks of the source cannot fail in
the typed embedding; the `dependencies is None` default is the empty
list. -/
def Workflow.add_job (w : Workflow) (job : Job) (dependencies : List Job) :
    Except WError Workflow :=
  match jobsLookup w.jobs job.name with
  | some _ => .error (.duplicateJob job.name)
  | none => .ok { w with jobs := w.jobs ++ [(job.name, ⟨job, dependencies⟩)] }

/-- graph[node].add(dependency_node) on the defaultdict(set): create the
entry on first access, then add to the set (sets do not duplicate). -/
def assocUpdate : List (Node × List Node) → Node → Node → List (Node × List Node)
  | [], n, d => [(n, [d])]
  | (k, v) :: rest, n, d =>
    if k = n then (k, if d ∈ v then v else v ++ [d]) :: rest
    else (k, v) :: assocUpdate rest n d

/-- The graph-building loop of `_compute_workflow_metadata` (lines
137-145).  Faithful to the source bug: `node_dict.get(job_name,
Node(...))` never stores into `node_dict`, so the default — a fresh
`Node(name, job)` value — is used on every reference, and `node_dict`
itself stays empty.  Only jobs with at least one declared dependency
ever create a graph entry. -/
def buildGraph (jobs : List (String × JobEntry)) : List (Node × List Node) :=
  jobs.foldl
    (fun g entry =>
      entry.2.dependencies.foldl
        (fun g' dep => assocUpdate g' ⟨entry.1, entry.2.job⟩ ⟨dep.name, dep⟩) g)
    []

/-- Keys (in order) of an association list modelling a Python dict. -/
def keysOf {α : Type} (data : List (α × List α)) : List α :=
  data.map Prod.fst

/-- Value stored under key `a`, with the empty set for absent keys. -/
def assocGet {α : Type} [DecidableEq α] : List (α × List α) → α → List α
  | [], _ => []
  | (k, v) :: rest, a => if k = a then v else assocGet rest a

/-- Dependency edge of the built graph: `b ∈ graph[a]`, i.e. job `a`
declared a dependency on `b`. -/
def graphEdge {α : Type} [DecidableEq α] (g : List (α × List α)) (a b : α) : Prop :=
  b ∈ assocGet g a

instance {α : Type} [DecidableEq α] (g : List (α × List α)) (a b : α) :
    Decidable (graphEdge g a b) :=
  inferInstanceAs (Decidable (b ∈ assocGet g a))

/-- Dependency edge between two distinct nodes (the `toposort` library
discards self-dependencies, so only these edges constrain the batch
order). -/
def strictEdge {α : Type} [DecidableEq α] (g : List (α × List α)) (a b : α) : Prop :=
  b ∈ assocGet g a ∧ a ≠ b

instance {α : Type} [DecidableEq α] (g : List (α × List α)) (a b : α) :
    Decidable (strictEdge g a b) :=
  inferInstanceAs (Decidable (_ ∧ _))

/-- One round's extraction of the `toposort` loop: the keys whose
remaining dependency set is empty
(`ordered = set(item for item, dep in data.items() if len(dep) == 0)`). -/
def orderedOf {α : Type} (data : List (α × List α)) : List α :=
  (data.filter (fun p => p.2.isEmpty)).map Prod.fst

/-- The working map after one round of the `toposort` loop:
`data = {item: (dep - ordered) for item, dep in data.items() if item not
in ordered}`. -/
def restOf {α : Type} [DecidableEq α] (data : List (α × List α)) :
    List (α × List α) :=
  (data.filter (fun p => decide (p.1 ∉ orderedOf data))).map
    (fun p => (p.1, p.2.filter (fun d => decide (d ∉ orderedOf data))))

/-- The `while True` loop of the `toposort` generator, with fuel.  When
`ordered` is empty the loop breaks: an empty working map means success,
a nonempty one raises `CircularDependencyError`.  Each yielding round
removes at least one entry from the working map, so fuel equal to the
length of the working map never runs out (`toposortGo_fuel_irrel`); the
fuel-exhaustion branch mirrors the break condition. -/
def toposortGo {α : Type} [DecidableEq α] :
    Nat → List (α × List α) → Except Unit (List (List α))
  | 0, data => if data.isEmpty then .ok [] else .error ()
  | fuel + 1, data =>
    if (orderedOf data).isEmpty then
      if data.isEmpty then .ok [] else .error ()
    else
      (toposortGo fuel (restOf data)).map (fun bs => orderedOf data :: bs)

/-- The first pre-processing step of the `toposort` generator: copy the
map and discard self-dependencies (`v.discard(k)`). -/
def selfPruned {α : Type} [DecidableEq α] (data : List (α × List α)) :
    List (α × List α) :=
  data.map (fun p => (p.1, p.2.filter (fun x => decide (x ≠ p.1))))

/-- The second pre-processing step of the `toposort` generator: the
items appearing in some dependency set without being keys
(`extra_items_in_deps = reduce(set.union, data.values()) -
set(data.keys())`, computed on the self-pruned copy). -/
def extraItems {α : Type} [DecidableEq α] (data : List (α × List α)) : List α :=
  (((selfPruned data).flatMap Prod.snd).dedup).filter
    (fun x => decide (x ∉ keysOf (selfPruned data)))

/-- The pre-processed working map of the `toposort` generator: the
self-pruned copy extended with an empty dependency set for every extra
item (`data.update({item: set() for item in extra_items_in_deps})`). -/
def toposortPrep {α : Type} [DecidableEq α] (data : List (α × List α)) :
    List (α × List α) :=
  selfPruned data ++ (extraItems data).map (fun x => (x, []))

/-- toposort(data): returns at once on an empty map, otherwise runs the
pre-processing and the extraction loop.  `.error ()` is the
`CircularDependencyError` raised when nodes remain but none are
extractable. -/
def toposort {α : Type} [DecidableEq α] (data : List (α × List α)) :
    Except Unit (List (List α)) :=
  if data.isEmpty then .ok []
  else toposortGo (toposortPrep data).length (toposortPrep data)

/-- Workflow._compute_workflow_metadata: guard against recomputation
(`if self.metadata: raise`), build the graph, force the `toposort`
generator (`tuple(toposort(graph))` — a cycle raises here, before the
setter runs), then assign through the `metadata` setter.  `nodes` is
`tuple(node_dict.values())`, which is always empty because `node_dict`
is never written (source bug, kept faithfully). -/
def computeWorkflowMetadata (w : Workflow) :
    Except WError (Metadata × Workflow) :=
  match Workflow.metadata w with
  | some _ => .error .metadataAlreadyComputed
  | none =>
    match toposort (buildGraph w.jobs) with
    | .error _ => .error .cyclicDependency
    | .ok batches =>
      let md : Metadata :=
        { nodes := [], topological_order := batches, graph := buildGraph w.jobs }
      match setMetadata w md with
      | .error e => .error e
      | .ok w' => .ok (md, w')

/-- status == JobStatus.FAILED or status == JobStatus.UNDETERMINED. -/
def jobErrored : JobStatus → Bool
  | .FAILED => true
  | .UNDETERMINED => true
  | _ => false

/-- The `errored_jobs` list collected by the poll pass of
`_execute_and_wait`, in batch order. -/
def erroredNames (status : Job → JobStatus) (jobs : List Job) : List String :=
  (jobs.filter (fun j => jobErrored (status j))).map Job.name

/-- Outcome of the poll loop of `_execute_and_wait` for one batch:
the batch finished, or the run was aborted after `_kill_jobs(jobs)`
(killed = every job of the batch) with the errored names, or neither
condition held and the coordinator keeps sleeping and polling. -/
inductive BatchOutcome where
  | success
  | errored (killed : List Job) (names : List String)
  | pending
  deriving DecidableEq, Repr

/-- One decisive poll pass of `_execute_and_wait` (lines 99-121): with
one observed status per job, return `True` when all are `FINISHED`;
otherwise, when any job is `FAILED` or `UNDETERMINED`, kill every job of
the batch and raise naming the errored ones; otherwise sleep and poll
again (abstracted as `pending`). -/
def executeAndWaitPoll (status : Job → JobStatus) (jobs : List Job) :
    BatchOutcome :=
  if jobs.all (fun j => decide (status j = .FINISHED)) then .success
  else if (erroredNames status jobs).isEmpty then .pending
  else .errored jobs (erroredNames status jobs)

/-- Result of one pass of the batch loop of `run`, carrying every job
whose start operation (`job.run()`) was invoked, in invocation order:
`_execute_and_wait` starts the whole batch before polling, so the jobs
of a failing or pending batch are started too. -/
inductive PassResult where
  | ok (started : List Job)
  | failed (started : List Job) (names : List String)
  | stuck (started : List Job)
  deriving DecidableEq, Repr

/-- The `for nodes in self.metadata.topological_order` loop of `run`:
execute the batches in order, stopping at the first batch that raises
(failed) or polls forever (stuck). -/
def runBatches (status : Job → JobStatus) : List (List Job) → PassResult
  | [] => .ok []
  | b :: rest =>
    match executeAndWaitPoll status b with
    | .success =>
      match runBatches status rest with
      | .ok s => .ok (b ++ s)
      | .failed s names => .failed (b ++ s) names
      | .stuck s => .stuck (b ++ s)
    | .errored _ names => .failed b names
    | .pending => .stuck b

/-- Observable outcome of `run`: returned normally, raised an error, or
still executing (the `while first_run or self.loop` loop has not ended
within the considered number of passes, or a poll loop never ends). -/
inductive RunOutcome where
  | returned
  | raised (e : WError)
  | running
  deriving DecidableEq, Repr

/-- The `while first_run or self.loop` loop of `run`, bounded by a pass
count: a pass that fails raises immediately (irrespective of the loop
flag); a successful pass returns unless the loop flag demands another
pass.  Zero remaining passes means execution is still in progress. -/
def runPasses (status : Job → JobStatus) (loop : Bool)
    (batches : List (List Job)) : Nat → RunOutcome × List Job
  | 0 => (.running, [])
  | n + 1 =>
    match runBatches status batches with
    | .ok s =>
      if loop then
        let r := runPasses status loop batches n
        (r.1, s ++ r.2)
      else (.returned, s)
    | .failed s names => (.raised (.batchFailure names), s)
    | .stuck s => (.running, s)

/-- jobs = [node.job for node in nodes], for each batch of the computed
topological order. -/
def batchesOf (md : Metadata) : List (List Job) :=
  md.topological_order.map (fun b => b.map Node.job)

/-- Workflow.run: compute the metadata (any failure there propagates
with no job started and the instance unchanged), then drive the pass
loop.  The result carries the outcome, every job started (in order of
`job.run()` invocations), and the final instance state. -/
def Workflow.run (w : Workflow) (status : Job → JobStatus) (fuel : Nat) :
    RunOutcome × List Job × Workflow :=
  match computeWorkflowMetadata w with
  | .error e => (.raised e, [], w)
  | .ok (md, w') =>
    let r := runPasses status w._loop (batchesOf md) fuel
    (r.1, r.2, w')

/-- The structural invariant of the pre-processed working map: keys are
pairwise distinct (Python dict), every dependency is itself a key
(guaranteed by the extra-items step), and no dependency is a
self-dependency (guaranteed by the pruning step). -/
def InvData {α : Type} (data : List (α × List α)) : Prop :=
  (keysOf data).Nodup ∧
  ∀ p ∈ data, ∀ d ∈ p.2, d ∈ keysOf data ∧ d ≠ p.1

/-! ### Concrete job objects, workflows and status assignments used as
witnesses and counterexamples -/

def jobA : Job := ⟨"A", 0⟩

def jobB : Job := ⟨"B", 1⟩

def jobX : Job := ⟨"X", 2⟩

def jobY : Job := ⟨"Y", 3⟩

def jobP : Job := ⟨"P", 4⟩

def jobQ : Job := ⟨"Q", 5⟩

def jobR : Job := ⟨"R", 6⟩

def jobS : Job := ⟨"S", 7⟩

/-- A second job object distinct from `jobA` but carrying the same name. -/
def jobA2 : Job := ⟨"A", 8⟩

def jobC : Job := ⟨"C", 9⟩

/-- A second job object distinct from `jobC` but carrying the same name. -/
def jobC2 : Job := ⟨"C", 10⟩

def nodeA : Node := ⟨"A", jobA⟩

def nodeB : Node := ⟨"B", jobB⟩

def nodeS : Node := ⟨"S", jobS⟩

def nodeC : Node := ⟨"C", jobC⟩

def nodeC2 : Node := ⟨"C", jobC2⟩

/-- Workflow with two registered jobs X and Y and no dependencies. -/
def wfXY : Workflow :=
  ⟨"wf", none, false, [("X", ⟨jobX, []⟩), ("Y", ⟨jobY, []⟩)]⟩

/-- Workflow with B depending on A (the same object registered for A). -/
def wfLin : Workflow :=
  ⟨"lin", none, false, [("A", ⟨jobA, []⟩), ("B", ⟨jobB, [jobA]⟩)]⟩

/-- The metadata the source computes for `wfLin` (nodes empty because of
the dead `node_dict`). -/
def mdLin : Metadata := ⟨[], [[nodeA], [nodeB]], [(nodeB, [nodeA])]⟩

/-- `wfLin` after its first run computed the metadata. -/
def wfLinDone : Workflow := { wfLin with _metadata := some mdLin }

/-- Looping variant of `wfLin`. -/
def wfLinLoop : Workflow :=
  ⟨"linloop", none, true, [("A", ⟨jobA, []⟩), ("B", ⟨jobB, [jobA]⟩)]⟩

/-- Workflow with the two-node dependency cycle A → B → A. -/
def wfCyc : Workflow :=
  ⟨"cyc", none, false, [("A", ⟨jobA, [jobB]⟩), ("B", ⟨jobB, [jobA]⟩)]⟩

/-- Workflow with the single job S declaring a dependency on itself:
its dependency graph is the self-loop S → S. -/
def wfSelf : Workflow :=
  ⟨"self", none, false, [("S", ⟨jobS, [jobS]⟩)]⟩

/-- Workflow whose graph holds two distinct nodes with the equal name
"C": A depends on the object `jobC`, B on the distinct object `jobC2`. -/
def wfTwoC : Workflow :=
  ⟨"twoC", none, false, [("A", ⟨jobA, [jobC]⟩), ("B", ⟨jobB, [jobC2]⟩)]⟩

/-- Workflow where the job object `jobC` is both registered (with a
dependency, so its registration creates a graph key) and referenced as
a dependency of B. -/
def wfShared : Workflow :=
  ⟨"shared", none, false, [("C", ⟨jobC, [jobA]⟩), ("B", ⟨jobB, [jobC]⟩)]⟩

/-- `wfLinLoop` after its first metadata computation. -/
def wfLinLoopDone : Workflow := { wfLinLoop with _metadata := some mdLin }

/-- The registry state after registering `jobA` on a fresh workflow. -/
def wf9 : Workflow := ⟨"w", none, false, [("A", ⟨jobA, []⟩)]⟩

/-- Status assignment: every job reports FINISHED at every poll. -/
def statusAllFin : Job → JobStatus := fun _ => .FINISHED

/-- Status assignment: job Q reports FAILED, every other job FINISHED. -/
def statusQFail : Job → JobStatus :=
  fun j => if j.name = "Q" then .FAILED else .FINISHED

/-- Status assignment: job A reports FAILED, every other job FINISHED. -/
def statusAFail : Job → JobStatus :=
  fun j => if j.name = "A" then .FAILED else .FINISHED

/-! ### Association-list and round lemmas for the embedded toposort -/

theorem mem_keysOf {α : Type} {data : List (α × List α)} {x : α} :
    x ∈ keysOf data ↔ ∃ v, (x, v) ∈ data := by
  unfold keysOf
  rw [List.mem_map]
  constructor
  · rintro ⟨p, hp, rfl⟩
    exact ⟨p.2, by simpa using hp⟩
  · rintro ⟨v, hv⟩
    exact ⟨(x, v), hv, rfl⟩

theorem mem_orderedOf {α : Type} {data : List (α × List α)} {x : α} :
    x ∈ orderedOf data ↔ (x, ([] : List α)) ∈ data := by
  unfold orderedOf
  rw [List.mem_map]
  constructor
  · rintro ⟨p, hp, rfl⟩
    rw [List.mem_filter] at hp
    have h2 : p.2 = [] := by
      have := hp.2
      simpa [List.isEmpty_iff] using this
    have : p = (p.1, ([] : List α)) := by
      rw [← h2]
    rw [← this]
    exact hp.1
  · intro hx
    refine ⟨(x, []), ?_, rfl⟩
    rw [List.mem_filter]
    exact ⟨hx, by simp⟩

theorem assoc_nodup_val_eq {α : Type} {data : List (α × List α)}
    (hnd : (keysOf data).Nodup) {k : α} {v v' : List α}
    (h1 : (k, v) ∈ data) (h2 : (k, v') ∈ data) : v = v' := by
  induction data with
  | nil => cases h1
  | cons p rest ih =>
    have hnd' : p.1 ∉ keysOf rest ∧ (keysOf rest).Nodup := by
      simpa [keysOf] using hnd
    rcases List.mem_cons.1 h1 with h1 | h1
    · rcases List.mem_cons.1 h2 with h2 | h2
      · rw [← h1] at h2
        exact congrArg Prod.snd h2.symm
      · exfalso
        apply hnd'.1
        rw [← h1]
        exact mem_keysOf.2 ⟨v', h2⟩
    · rcases List.mem_cons.1 h2 with h2 | h2
      · exfalso
        apply hnd'.1
        rw [← h2]
        exact mem_keysOf.2 ⟨v, h1⟩
      · exact ih hnd'.2 h1 h2

theorem mem_restOf_of {α : Type} [DecidableEq α] {data : List (α × List α)}
    {k : α} {v : List α} (hkv : (k, v) ∈ data) (hk : k ∉ orderedOf data) :
    (k, v.filter (fun d => decide (d ∉ orderedOf data))) ∈ restOf data := by
  unfold restOf
  refine List.mem_map.2 ⟨(k, v), ?_, rfl⟩
  rw [List.mem_filter]
  exact ⟨hkv, by simpa using hk⟩

theorem of_mem_restOf {α : Type} [DecidableEq α] {data : List (α × List α)}
    {q : α × List α} (hq : q ∈ restOf data) :
    ∃ v, (q.1, v) ∈ data ∧ q.1 ∉ orderedOf data ∧
      q.2 = v.filter (fun d => decide (d ∉ orderedOf data)) := by
  unfold restOf at hq
  rcases List.mem_map.1 hq with ⟨p, hp, hpq⟩
  rw [List.mem_filter] at hp
  refine ⟨p.2, ?_, ?_, ?_⟩
  · have : q.1 = p.1 := by rw [← hpq]
    rw [this, Prod.mk.eta]
    exact hp.1
  · have : q.1 = p.1 := by rw [← hpq]
    rw [this]
    simpa using hp.2
  · rw [← hpq]

theorem mem_keysOf_restOf {α : Type} [DecidableEq α] {data : List (α × List α)}
    {x : α} (hx : x ∈ keysOf data) (hno : x ∉ orderedOf data) :
    x ∈ keysOf (restOf data) := by
  rcases mem_keysOf.1 hx with ⟨v, hv⟩
  exact mem_keysOf.2 ⟨_, mem_restOf_of hv hno⟩

theorem keysOf_restOf_not_ordered {α : Type} [DecidableEq α]
    {data : List (α × List α)} {x : α} (hx : x ∈ keysOf (restOf data)) :
    x ∉ orderedOf data := by
  rcases mem_keysOf.1 hx with ⟨v, hv⟩
  rcases of_mem_restOf hv with ⟨_, _, hno, _⟩
  exact hno

theorem keysOf_restOf_sub {α : Type} [DecidableEq α]
    {data : List (α × List α)} {x : α} (hx : x ∈ keysOf (restOf data)) :
    x ∈ keysOf data := by
  rcases mem_keysOf.1 hx with ⟨v, hv⟩
  rcases of_mem_restOf hv with ⟨v', hv', _, _⟩
  exact mem_keysOf.2 ⟨v', hv'⟩

theorem toposortGo_zero_ok {α : Type} [DecidableEq α]
    {data : List (α × List α)} {batches : List (List α)}
    (h : toposortGo 0 data = .ok batches) : data = [] ∧ batches = [] := by
  by_cases hd : data.isEmpty
  · simp only [toposortGo, if_pos hd] at h
    simp only [Except.ok.injEq] at h
    exact ⟨List.isEmpty_iff.1 hd, h.symm⟩
  · simp only [toposortGo, if_neg hd] at h
    cases h

theorem toposortGo_succ_ok {α : Type} [DecidableEq α]
    {fuel : Nat} {data : List (α × List α)} {batches : List (List α)}
    (h : toposortGo (fuel + 1) data = .ok batches) :
    (data = [] ∧ batches = []) ∨
    (¬ (orderedOf data).isEmpty ∧
      ∃ bs, toposortGo fuel (restOf data) = .ok bs ∧
        batches = orderedOf data :: bs) := by
  by_cases hord : (orderedOf data).isEmpty
  · simp only [toposortGo, if_pos hord] at h
    by_cases hd : data.isEmpty
    · rw [if_pos hd] at h
      simp only [Except.ok.injEq] at h
      exact Or.inl ⟨List.isEmpty_iff.1 hd, h.symm⟩
    · rw [if_neg hd] at h
      cases h
  · simp only [toposortGo, if_neg hord] at h
    cases hrec : toposortGo fuel (restOf data) with
    | error e =>
      rw [hrec] at h
      simp [Except.map] at h
    | ok bs =>
      rw [hrec] at h
      simp only [Except.map, Except.ok.injEq] at h
      exact Or.inr ⟨hord, bs, rfl, h.symm⟩

theorem toposortGo_batch_mem_keys {α : Type} [DecidableEq α] :
    ∀ (fuel : Nat) {data : List (α × List α)} {batches : List (List α)},
    toposortGo fuel data = .ok batches →
    ∀ {i : Nat} {b : List α}, batches.get? i = some b →
    ∀ {x : α}, x ∈ b → x ∈ keysOf data := by
  intro fuel
  induction fuel with
  | zero =>
    intro data batches h i b hb x hx
    rcases toposortGo_zero_ok h with ⟨_, rfl⟩
    simp at hb
  | succ fuel ih =>
    intro data batches h i b hb x hx
    rcases toposortGo_succ_ok h with ⟨_, rfl⟩ | ⟨hord, bs, hrec, rfl⟩
    · simp at hb
    · cases i with
      | zero =>
        simp only [List.get?_cons_zero, Option.some.injEq] at hb
        rw [← hb] at hx
        exact mem_keysOf.2 ⟨[], mem_orderedOf.1 hx⟩
      | succ i =>
        simp only [List.get?_cons_succ] at hb
        exact keysOf_restOf_sub (ih hrec hb hx)

theorem toposortGo_complete {α : Type} [DecidableEq α] :
    ∀ (fuel : Nat) {data : List (α × List α)} {batches : List (List α)},
    toposortGo fuel data = .ok batches →
    ∀ {k : α}, k ∈ keysOf data → ∃ i b, batches.get? i = some b ∧ k ∈ b := by
  intro fuel
  induction fuel with
  | zero =>
    intro data batches h k hk
    rcases toposortGo_zero_ok h with ⟨rfl, _⟩
    simp [keysOf] at hk
  | succ fuel ih =>
    intro data batches h k hk
    rcases toposortGo_succ_ok h with ⟨rfl, _⟩ | ⟨hord, bs, hrec, rfl⟩
    · simp [keysOf] at hk
    · by_cases hko : k ∈ orderedOf data
      · exact ⟨0, orderedOf data, by simp, hko⟩
      · rcases ih hrec (mem_keysOf_restOf hk hko) with ⟨i, b, hb, hkb⟩
        exact ⟨i + 1, b, by simpa using hb, hkb⟩

theorem toposortGo_batch_unique {α : Type} [DecidableEq α] :
    ∀ (fuel : Nat) {data : List (α × List α)} {batches : List (List α)},
    toposortGo fuel data = .ok batches →
    ∀ {x : α} {i j : Nat} {bi bj : List α},
      batches.get? i = some bi → batches.get? j = some bj →
      x ∈ bi → x ∈ bj → i = j := by
  intro fuel
  induction fuel with
  | zero =>
    intro data batches h x i j bi bj hbi hbj hxi hxj
    rcases toposortGo_zero_ok h with ⟨_, rfl⟩
    simp at hbi
  | succ fuel ih =>
    intro data batches h x i j bi bj hbi hbj hxi hxj
    rcases toposortGo_succ_ok h with ⟨_, rfl⟩ | ⟨hord, bs, hrec, rfl⟩
    · simp at hbi
    · cases i with
      | zero =>
        cases j with
        | zero => rfl
        | succ j =>
          exfalso
          simp only [List.get?_cons_zero, Option.some.injEq] at hbi
          simp only [List.get?_cons_succ] at hbj
          have hxk : x ∈ keysOf (restOf data) :=
            toposortGo_batch_mem_keys fuel hrec hbj hxj
          rw [← hbi] at hxi
          exact keysOf_restOf_not_ordered hxk hxi
      | succ i =>
        cases j with
        | zero =>
          exfalso
          simp only [List.get?_cons_zero, Option.some.injEq] at hbj
          simp only [List.get?_cons_succ] at hbi
          have hxk : x ∈ keysOf (restOf data) :=
            toposortGo_batch_mem_keys fuel hrec hbi hxi
          rw [← hbj] at hxj
          exact keysOf_restOf_not_ordered hxk hxj
        | succ j =>
          simp only [List.get?_cons_succ] at hbi hbj
          exact congrArg Nat.succ (ih hrec hbi hbj hxi hxj)

theorem keysOf_selfPruned {α : Type} [DecidableEq α]
    (data : List (α × List α)) : keysOf (selfPruned data) = keysOf data := by
  unfold keysOf selfPruned
  rw [List.map_map]
  rfl

theorem keysOf_toposortPrep {α : Type} [DecidableEq α]
    (data : List (α × List α)) :
    keysOf (toposortPrep data) = keysOf data ++ extraItems data := by
  unfold toposortPrep keysOf selfPruned
  rw [List.map_append, List.map_map, List.map_map]
  congr 1
  rw [show (Prod.fst ∘ fun x : α => (x, ([] : List α))) = id from rfl, List.map_id]

theorem invData_restOf {α : Type} [DecidableEq α] {data : List (α × List α)}
    (h : InvData data) : InvData (restOf data) := by
  constructor
  · have hsub : keysOf (restOf data) =
        (data.filter (fun p => decide (p.1 ∉ orderedOf data))).map Prod.fst := by
      unfold keysOf restOf
      rw [List.map_map]
      rfl
    rw [hsub]
    exact ((List.filter_sublist data).map Prod.fst).nodup h.1
  · intro q hq d hd
    rcases of_mem_restOf hq with ⟨v, hv, hno, hq2⟩
    rw [hq2] at hd
    rw [List.mem_filter] at hd
    have hdv := hd.1
    have hdno : d ∉ orderedOf data := by simpa using hd.2
    have hmain := h.2 (q.1, v) hv d hdv
    exact ⟨mem_keysOf_restOf hmain.1 hdno, hmain.2⟩

theorem invData_toposortPrep {α : Type} [DecidableEq α]
    {data : List (α × List α)} (hnd : (keysOf data).Nodup) :
    InvData (toposortPrep data) := by
  constructor
  · rw [keysOf_toposortPrep]
    rw [List.nodup_append]
    refine ⟨hnd, ?_, ?_⟩
    · exact (List.nodup_dedup _).filter _
    · intro a ha hb
      unfold extraItems at hb
      rw [List.mem_filter] at hb
      have := hb.2
      rw [keysOf_selfPruned] at this
      simp only [decide_eq_true_eq] at this
      exact this ha
  · intro p hp d hd
    unfold toposortPrep at hp
    rcases List.mem_append.1 hp with hp | hp
    · rcases List.mem_map.1 hp with ⟨q, hq, hpq⟩
      rw [← hpq] at hd
      simp only at hd
      rw [List.mem_filter] at hd
      have hdq : d ∈ q.2 := hd.1
      have hdne : d ≠ q.1 := by simpa using hd.2
      constructor
      · rw [keysOf_toposortPrep]
        by_cases hk : d ∈ keysOf data
        · exact List.mem_append_left _ hk
        · apply List.mem_append_right
          unfold extraItems
          rw [List.mem_filter]
          constructor
          · rw [List.mem_dedup]
            apply List.mem_flatMap.2
            refine ⟨(q.1, q.2.filter (fun x => decide (x ≠ q.1))), ?_, ?_⟩
            · exact List.mem_map.2 ⟨q, hq, rfl⟩
            · rw [List.mem_filter]
              exact ⟨hdq, by simpa using hdne⟩
          · rw [keysOf_selfPruned]
            simpa using hk
      · rw [← hpq]
        simpa using hdne
    · rcases List.mem_map.1 hp with ⟨x, _, hpx⟩
      rw [← hpx] at hd
      simp at hd

theorem toposortGo_edge_lt {α : Type} [DecidableEq α] :
    ∀ (fuel : Nat) {data : List (α × List α)} {batches : List (List α)},
    InvData data → toposortGo fuel data = .ok batches →
    ∀ {k : α} {v : List α} {d : α}, (k, v) ∈ data → d ∈ v →
    ∃ i j bi bj, batches.get? i = some bi ∧ batches.get? j = some bj ∧
      d ∈ bi ∧ k ∈ bj ∧ i < j := by
  intro fuel
  induction fuel with
  | zero =>
    intro data batches _ h k v d hkv hd
    rcases toposortGo_zero_ok h with ⟨rfl, _⟩
    cases hkv
  | succ fuel ih =>
    intro data batches hInv h k v d hkv hd
    rcases toposortGo_succ_ok h with ⟨rfl, _⟩ | ⟨hord, bs, hrec, rfl⟩
    · cases hkv
    · have hkord : k ∉ orderedOf data := by
        intro hk
        have hempty : v = [] := assoc_nodup_val_eq hInv.1 hkv (mem_orderedOf.1 hk)
        rw [hempty] at hd
        cases hd
      by_cases hdo : d ∈ orderedOf data
      · have hkrest : k ∈ keysOf (restOf data) :=
          mem_keysOf_restOf (mem_keysOf.2 ⟨v, hkv⟩) hkord
        rcases toposortGo_complete fuel hrec hkrest with ⟨j, bj, hbj, hkbj⟩
        exact ⟨0, j + 1, orderedOf data, bj, by simp, by simpa using hbj,
          hdo, hkbj, Nat.succ_pos j⟩
      · have hmem : (k, v.filter (fun x => decide (x ∉ orderedOf data))) ∈
            restOf data := mem_restOf_of hkv hkord
        have hdmem : d ∈ v.filter (fun x => decide (x ∉ orderedOf data)) := by
          rw [List.mem_filter]
          exact ⟨hd, by simpa using hdo⟩
        rcases ih (invData_restOf hInv) hrec hmem hdmem with
          ⟨i, j, bi, bj, hbi, hbj, hdbi, hkbj, hij⟩
        exact ⟨i + 1, j + 1, bi, bj, by simpa using hbi, by simpa using hbj,
          hdbi, hkbj, Nat.succ_lt_succ hij⟩

theorem toposortGo_edge_forall {α : Type} [DecidableEq α]
    {fuel : Nat} {data : List (α × List α)} {batches : List (List α)}
    (hInv : InvData data) (h : toposortGo fuel data = .ok batches)
    {k : α} {v : List α} {d : α} (hkv : (k, v) ∈ data) (hd : d ∈ v) :
    (∃ i bi, batches.get? i = some bi ∧ d ∈ bi) ∧
    (∃ j bj, batches.get? j = some bj ∧ k ∈ bj) ∧
    ∀ {i j : Nat} {bi bj : List α},
      batches.get? i = some bi → batches.get? j = some bj →
      d ∈ bi → k ∈ bj → i < j := by
  rcases toposortGo_edge_lt fuel hInv h hkv hd with
    ⟨i0, j0, bi0, bj0, hbi0, hbj0, hd0, hk0, hij0⟩
  refine ⟨⟨i0, bi0, hbi0, hd0⟩, ⟨j0, bj0, hbj0, hk0⟩, ?_⟩
  intro i j bi bj hbi hbj hdbi hkbj
  have hi : i = i0 := toposortGo_batch_unique fuel h hbi hbi0 hdbi hd0
  have hj : j = j0 := toposortGo_batch_unique fuel h hbj hbj0 hkbj hk0
  rw [hi, hj]
  exact hij0

theorem restOf_length_lt {α : Type} [DecidableEq α] {data : List (α × List α)}
    (h : ¬ (orderedOf data).isEmpty) : (restOf data).length < data.length := by
  have hlen : (restOf data).length =
      (data.filter (fun p => decide (p.1 ∉ orderedOf data))).length := by
    unfold restOf
    rw [List.length_map]
  rw [hlen]
  apply List.length_filter_lt_length_iff_exists.2
  rcases List.exists_mem_of_ne_nil (orderedOf data)
      (fun hnil => h (by rw [hnil]; rfl)) with ⟨x, hx⟩
  exact ⟨(x, []), mem_orderedOf.1 hx, by simpa using hx⟩

theorem toposortGo_nil_eq {α : Type} [DecidableEq α] (fuel : Nat) :
    toposortGo fuel ([] : List (α × List α)) = .ok [] := by
  cases fuel <;> simp [toposortGo, orderedOf]

theorem toposortGo_fuel_irrel {α : Type} [DecidableEq α] :
    ∀ (fuel fuel' : Nat) (data : List (α × List α)), data.length ≤ fuel →
    data.length ≤ fuel' → toposortGo fuel data = toposortGo fuel' data := by
  intro fuel
  induction fuel with
  | zero =>
    intro fuel' data h _
    have hnil : data = [] := List.length_eq_zero.1 (Nat.le_zero.1 h)
    rw [hnil, toposortGo_nil_eq, toposortGo_nil_eq]
  | succ fuel ih =>
    intro fuel' data h h'
    cases fuel' with
    | zero =>
      have hnil : data = [] := List.length_eq_zero.1 (Nat.le_zero.1 h')
      rw [hnil, toposortGo_nil_eq, toposortGo_nil_eq]
    | succ fuel'' =>
      by_cases hord : (orderedOf data).isEmpty
      · simp only [toposortGo, if_pos hord]
      · simp only [toposortGo, if_neg hord]
        rw [ih fuel'' (restOf data)
          (Nat.le_of_lt_succ (Nat.lt_of_lt_of_le (restOf_length_lt hord) h))
          (Nat.le_of_lt_succ (Nat.lt_of_lt_of_le (restOf_length_lt hord) h'))]

theorem assocGet_entry_mem {α : Type} [DecidableEq α] {g : List (α × List α)}
    {a b : α} (h : b ∈ assocGet g a) : (a, assocGet g a) ∈ g := by
  induction g with
  | nil => simp [assocGet] at h
  | cons p rest ih =>
    obtain ⟨k, v⟩ := p
    by_cases hk : k = a
    · subst hk
      simp [assocGet]
    · have h' : b ∈ assocGet rest a := by simpa [assocGet, hk] using h
      have hmem := ih h'
      have hrw : assocGet ((k, v) :: rest) a = assocGet rest a := by
        simp [assocGet, hk]
      rw [hrw]
      exact List.mem_cons_of_mem _ hmem

theorem toposort_strictEdge_facts {α : Type} [DecidableEq α]
    {g : List (α × List α)} {batches : List (List α)}
    (hnd : (keysOf g).Nodup) (h : toposort g = .ok batches)
    {a b : α} (he : strictEdge g a b) :
    (∃ i bi, batches.get? i = some bi ∧ b ∈ bi) ∧
    (∃ j bj, batches.get? j = some bj ∧ a ∈ bj) ∧
    ∀ {i j : Nat} {bi bj : List α},
      batches.get? i = some bi → batches.get? j = some bj →
      b ∈ bi → a ∈ bj → i < j := by
  rcases he with ⟨hb, hab⟩
  have hg : ¬ g.isEmpty = true := by
    intro hemp
    rw [List.isEmpty_iff] at hemp
    rw [hemp] at hb
    simp [assocGet] at hb
  have htop : toposortGo (toposortPrep g).length (toposortPrep g) = .ok batches := by
    unfold toposort at h
    rw [if_neg hg] at h
    exact h
  have hmem : (a, assocGet g a) ∈ g := assocGet_entry_mem hb
  have hprep : (a, (assocGet g a).filter (fun x => decide (x ≠ a))) ∈
      toposortPrep g := by
    unfold toposortPrep
    apply List.mem_append_left
    unfold selfPruned
    exact List.mem_map.2 ⟨(a, assocGet g a), hmem, rfl⟩
  have hbprep : b ∈ (assocGet g a).filter (fun x => decide (x ≠ a)) := by
    rw [List.mem_filter]
    exact ⟨hb, by simpa using Ne.symm hab⟩
  exact toposortGo_edge_forall (invData_toposortPrep hnd) htop hprep hbprep

theorem toposort_transGen_lt {α : Type} [DecidableEq α]
    {g : List (α × List α)} {batches : List (List α)}
    (hnd : (keysOf g).Nodup) (h : toposort g = .ok batches)
    {a b : α} (ht : Relation.TransGen (strictEdge g) a b) :
    ∀ {i j : Nat} {bi bj : List α},
      batches.get? i = some bi → batches.get? j = some bj →
      b ∈ bi → a ∈ bj → i < j := by
  induction ht with
  | single he => exact (toposort_strictEdge_facts hnd h he).2.2
  | tail ht' he ih =>
    intro i j bi bj hbi hbj hbbi habj
    rcases (toposort_strictEdge_facts hnd h he).2.1 with ⟨k, bk, hbk, hcbk⟩
    exact Nat.lt_trans ((toposort_strictEdge_facts hnd h he).2.2 hbi hbk hbbi hcbk)
      (ih hbk hbj hcbk habj)

theorem toposort_ok_no_cycle {α : Type} [DecidableEq α]
    {g : List (α × List α)} {batches : List (List α)}
    (hnd : (keysOf g).Nodup) (h : toposort g = .ok batches) (n : α) :
    ¬ Relation.TransGen (strictEdge g) n n := by
  intro ht
  have hout : ∀ m, Relation.TransGen (strictEdge g) n m →
      ∃ c, strictEdge g n c := by
    intro m hm
    induction hm with
    | single he => exact ⟨_, he⟩
    | tail ht' he ih => exact ih
  rcases hout n ht with ⟨c, hc⟩
  rcases (toposort_strictEdge_facts hnd h hc).2.1 with ⟨j, bj, hbj, hnbj⟩
  exact Nat.lt_irrefl j (toposort_transGen_lt hnd h ht hbj hbj hnbj hnbj)

theorem keysOf_assocUpdate (g : List (Node × List Node)) (n d : Node) :
    keysOf (assocUpdate g n d) =
      if n ∈ keysOf g then keysOf g else keysOf g ++ [n] := by
  induction g with
  | nil => simp [assocUpdate, keysOf]
  | cons p rest ih =>
    obtain ⟨k, v⟩ := p
    simp only [keysOf] at ih ⊢
    by_cases hk : k = n
    · subst hk
      simp [assocUpdate]
    · rw [show assocUpdate ((k, v) :: rest) n d =
          (k, v) :: assocUpdate rest n d by simp [assocUpdate, hk]]
      simp only [List.map_cons]
      rw [ih]
      have hne : ¬ n = k := fun h => hk h.symm
      by_cases hn : n ∈ rest.map Prod.fst
      · simp [hn, hne]
      · simp [hn, hne]

theorem nodup_keysOf_assocUpdate {g : List (Node × List Node)} {n d : Node}
    (h : (keysOf g).Nodup) : (keysOf (assocUpdate g n d)).Nodup := by
  rw [keysOf_assocUpdate]
  by_cases hn : n ∈ keysOf g
  · simpa [hn] using h
  · rw [if_neg hn, List.nodup_append]
    refine ⟨h, List.nodup_singleton n, ?_⟩
    intro a ha hb
    rw [List.mem_singleton] at hb
    rw [hb] at ha
    exact hn ha

theorem nodup_keysOf_depsFold (node : Node) :
    ∀ (deps : List Job) (g : List (Node × List Node)), (keysOf g).Nodup →
    (keysOf (deps.foldl (fun g' dep => assocUpdate g' node ⟨dep.name, dep⟩) g)).Nodup := by
  intro deps
  induction deps with
  | nil =>
    intro g h
    exact h
  | cons dep rest ih =>
    intro g h
    rw [List.foldl_cons]
    exact ih _ (nodup_keysOf_assocUpdate h)

theorem nodup_keysOf_buildGraph (jobs : List (String × JobEntry)) :
    (keysOf (buildGraph jobs)).Nodup := by
  unfold buildGraph
  have hgen : ∀ (js : List (String × JobEntry)) (g : List (Node × List Node)),
      (keysOf g).Nodup →
      (keysOf (js.foldl (fun g entry => entry.2.dependencies.foldl
        (fun g' dep => assocUpdate g' ⟨entry.1, entry.2.job⟩ ⟨dep.name, dep⟩) g)
        g)).Nodup := by
    intro js
    induction js with
    | nil =>
      intro g h
      exact h
    | cons e rest ih =>
      intro g h
      rw [List.foldl_cons]
      exact ih _ (nodup_keysOf_depsFold _ _ _ h)
  exact hgen jobs [] (by simp [keysOf])

/-! ### Workflow-level helper lemmas -/

theorem computeWorkflowMetadata_already {w : Workflow} {m : Metadata}
    (hm : w._metadata = some m) :
    computeWorkflowMetadata w = .error .metadataAlreadyComputed := by
  simp [computeWorkflowMetadata, Workflow.metadata, hm]

theorem computeWorkflowMetadata_cyclic {w : Workflow}
    (hm : w._metadata = none)
    (ht : toposort (buildGraph w.jobs) = .error ()) :
    computeWorkflowMetadata w = .error .cyclicDependency := by
  simp [computeWorkflowMetadata, Workflow.metadata, hm, ht]

theorem computeWorkflowMetadata_ok {w : Workflow} {md : Metadata} {w' : Workflow}
    (h : computeWorkflowMetadata w = .ok (md, w')) :
    w._metadata = none ∧
    toposort (buildGraph w.jobs) = .ok md.topological_order ∧
    md.nodes = [] ∧ md.graph = buildGraph w.jobs ∧
    w' = { w with _metadata := some md } := by
  cases hm : w._metadata with
  | some m =>
    rw [computeWorkflowMetadata_already hm] at h
    cases h
  | none =>
    cases ht : toposort (buildGraph w.jobs) with
    | error e =>
      cases e
      rw [computeWorkflowMetadata_cyclic hm ht] at h
      cases h
    | ok batches =>
      have heq : computeWorkflowMetadata w =
          .ok (⟨[], batches, buildGraph w.jobs⟩,
            { w with _metadata := some ⟨[], batches, buildGraph w.jobs⟩ }) := by
        simp [computeWorkflowMetadata, Workflow.metadata, hm, ht, setMetadata]
      rw [heq] at h
      simp only [Except.ok.injEq, Prod.mk.injEq] at h
      obtain ⟨hmd, hw'⟩ := h
      subst hmd
      subst hw'
      exact ⟨rfl, rfl, rfl, rfl, rfl⟩

theorem run_of_compute_error {w : Workflow} {e : WError}
    (h : computeWorkflowMetadata w = .error e)
    (status : Job → JobStatus) (fuel : Nat) :
    Workflow.run w status fuel = (.raised e, [], w) := by
  simp [Workflow.run, h]

theorem run_of_compute_ok {w : Workflow} {md : Metadata} {w' : Workflow}
    (h : computeWorkflowMetadata w = .ok (md, w'))
    (status : Job → JobStatus) (fuel : Nat) :
    Workflow.run w status fuel =
      ((runPasses status w._loop (batchesOf md) fuel).1,
       (runPasses status w._loop (batchesOf md) fuel).2, w') := by
  simp [Workflow.run, h]

theorem jobErrored_ne_finished {s : JobStatus} (h : jobErrored s = true) :
    s ≠ .FINISHED := by
  intro he
  rw [he] at h
  simp [jobErrored] at h

theorem mem_erroredNames {status : Job → JobStatus} {jobs : List Job}
    {n : String} :
    n ∈ erroredNames status jobs ↔
      ∃ j ∈ jobs, jobErrored (status j) = true ∧ j.name = n := by
  unfold erroredNames
  rw [List.mem_map]
  constructor
  · rintro ⟨j, hj, rfl⟩
    rw [List.mem_filter] at hj
    exact ⟨j, hj.1, hj.2, rfl⟩
  · rintro ⟨j, hj, hE, rfl⟩
    exact ⟨j, List.mem_filter.2 ⟨hj, hE⟩, rfl⟩

theorem executeAndWaitPoll_success {status : Job → JobStatus} {jobs : List Job}
    (h : ∀ j ∈ jobs, status j = .FINISHED) :
    executeAndWaitPoll status jobs = .success := by
  unfold executeAndWaitPoll
  rw [if_pos]
  exact List.all_eq_true.2 (fun j hj => by simp [h j hj])

theorem executeAndWaitPoll_errored {status : Job → JobStatus} {jobs : List Job}
    (h : ∃ j ∈ jobs, jobErrored (status j) = true) :
    executeAndWaitPoll status jobs =
      .errored jobs (erroredNames status jobs) := by
  rcases h with ⟨j, hj, hjE⟩
  have hne : j.name ∈ erroredNames status jobs :=
    mem_erroredNames.2 ⟨j, hj, hjE, rfl⟩
  have hnotall :
      ¬ (jobs.all (fun j => decide (status j = JobStatus.FINISHED)) = true) := by
    intro hall
    have hfin := List.all_eq_true.1 hall j hj
    rw [decide_eq_true_eq] at hfin
    exact jobErrored_ne_finished hjE hfin
  have hnempty : ¬ ((erroredNames status jobs).isEmpty = true) := by
    intro hempty
    rw [List.isEmpty_iff] at hempty
    rw [hempty] at hne
    cases hne
  unfold executeAndWaitPoll
  rw [if_neg hnotall, if_neg hnempty]

theorem runBatches_all_finished {status : Job → JobStatus} :
    ∀ (batches : List (List Job)),
    (∀ b ∈ batches, ∀ j ∈ b, status j = .FINISHED) →
    runBatches status batches = .ok batches.flatten := by
  intro batches
  induction batches with
  | nil =>
    intro _
    simp [runBatches]
  | cons b rest ih =>
    intro h
    have hb := executeAndWaitPoll_success
      (fun j hj => h b (List.mem_cons_self b rest) j hj)
    have hrest := ih (fun b' hb' j hj => h b' (List.mem_cons_of_mem _ hb') j hj)
    simp [runBatches, hb, hrest]

theorem runBatches_failed_at {status : Job → JobStatus}
    (pre : List (List Job)) (b : List Job) (post : List (List Job))
    (hpre : ∀ batch ∈ pre, ∀ j ∈ batch, status j = .FINISHED)
    (hb : ∃ j ∈ b, jobErrored (status j) = true) :
    runBatches status (pre ++ b :: post) =
      .failed (pre.flatten ++ b) (erroredNames status b) := by
  induction pre with
  | nil =>
    simp [runBatches, executeAndWaitPoll_errored hb]
  | cons p rest ih =>
    have hp := executeAndWaitPoll_success
      (fun j hj => hpre p (List.mem_cons_self p rest) j hj)
    have hrest := ih (fun b' hb' j hj => hpre b' (List.mem_cons_of_mem _ hb') j hj)
    simp [runBatches, hp, hrest]

theorem runPasses_loop_running {status : Job → JobStatus}
    {batches : List (List Job)} {s : List Job}
    (h : runBatches status batches = .ok s) :
    ∀ n, (runPasses status true batches n).1 = .running := by
  intro n
  induction n with
  | zero => rfl
  | succ n ih => simp [runPasses, h, ih]

theorem runPasses_failed {status : Job → JobStatus}
    {batches : List (List Job)} {s : List Job} {names : List String}
    (h : runBatches status batches = .failed s names)
    (loop : Bool) (n : Nat) :
    runPasses status loop batches (n + 1) =
      (.raised (.batchFailure names), s) := by
  simp [runPasses, h]

theorem jobsLookup_append_right {jobs : List (String × JobEntry)} {n : String}
    (h : jobsLookup jobs n = none) (e : JobEntry) :
    jobsLookup (jobs ++ [(n, e)]) n = some e := by
  induction jobs with
  | nil => simp [jobsLookup]
  | cons p rest ih =>
    obtain ⟨k, v⟩ := p
    by_cases hk : k = n
    · simp [jobsLookup, hk] at h
    · simp only [List.cons_append, jobsLookup, if_neg hk] at h ⊢
      exact ih h

theorem add_job_ok {w : Workflow} {job : Job} {deps : List Job} {w1 : Workflow}
    (h : Workflow.add_job w job deps = .ok w1) :
    jobsLookup w.jobs job.name = none ∧
    w1 = { w with jobs := w.jobs ++ [(job.name, ⟨job, deps⟩)] } := by
  unfold Workflow.add_job at h
  cases hl : jobsLookup w.jobs job.name with
  | some e =>
    rw [hl] at h
    cases h
  | none =>
    rw [hl] at h
    simp only [Except.ok.injEq] at h
    exact ⟨rfl, h.symm⟩

theorem transGen_irrefl_of_pair {r : Node → Node → Prop} {x y : Node}
    (hxy : x ≠ y) (hr : ∀ a b, r a b → a = x ∧ b = y) (n : Node) :
    ¬ Relation.TransGen r n n := by
  have hall : ∀ a b, Relation.TransGen r a b → a = x ∧ b = y := by
    intro a b ht
    induction ht with
    | single he => exact hr _ _ he
    | tail ht' he ih => exact ⟨ih.1, (hr _ _ he).2⟩
  intro ht
  rcases hall n n ht with ⟨h1, h2⟩
  exact hxy (h1.symm.trans h2)

theorem graphEdge_wfLin_pair :
    ∀ a b : Node, graphEdge mdLin.graph a b → a = nodeB ∧ b = nodeA := by
  intro a b h
  have hg : mdLin.graph = [(nodeB, [nodeA])] := rfl
  rw [hg] at h
  unfold graphEdge at h
  by_cases hab : nodeB = a
  · rw [show assocGet [(nodeB, [nodeA])] a = [nodeA] by
      simp [assocGet, hab]] at h
    rw [List.mem_singleton] at h
    exact ⟨hab.symm, h⟩
  · rw [show assocGet [(nodeB, [nodeA])] a = [] by
      simp [assocGet, hab]] at h
    cases h

/-! ### Claim theorems -/

/-- C1 (code bug): the claim fails on the code.  For the workflow with
exactly the two registered jobs X and Y and no dependencies, the
computed metadata has an empty `nodes` tuple and an empty batch
sequence: neither job's node appears in any batch, the union of the
batches (empty) does not equal the registered jobs' node set, and
`run()` returns without starting a single job — contradicting the spec
and the docstring of `run` ("executing jobs in the specified order").
Root cause: `node_dict.get(...)` is used without ever storing into
`node_dict`, so `nodes = tuple(node_dict.values())` is always empty and
dependency-free jobs never reach the graph handed to `toposort`. -/
theorem c1_independent_jobs_dropped :
    computeWorkflowMetadata wfXY =
      .ok (⟨[], [], []⟩, { wfXY with _metadata := some ⟨[], [], []⟩ }) ∧
    (Workflow.run wfXY statusAllFin 1).1 = .returned ∧
    (Workflow.run wfXY statusAllFin 1).2.1 = [] ∧
    jobsLookup wfXY.jobs "X" = some ⟨jobX, []⟩ ∧
    jobsLookup wfXY.jobs "Y" = some ⟨jobY, []⟩ := by
  refine ⟨by decide, by decide, by decide, by decide, by decide⟩

/-- C2: for every workflow whose metadata computation succeeds and whose
computed dependency graph is acyclic, every dependency edge A → B of the
graph (job A depends on job B) places B's node in a strictly earlier
batch of the topological order than A's node: both nodes occur in
batches, and every batch index holding B is strictly below every batch
index holding A. -/
theorem c2_dependency_batch_order (w : Workflow) (md : Metadata) (w' : Workflow)
    (hm : computeWorkflowMetadata w = .ok (md, w'))
    (hacyc : ∀ n : Node, ¬ Relation.TransGen (graphEdge md.graph) n n)
    (nA nB : Node) (hedge : graphEdge md.graph nA nB) :
    (∃ i bi, md.topological_order.get? i = some bi ∧ nB ∈ bi) ∧
    (∃ j bj, md.topological_order.get? j = some bj ∧ nA ∈ bj) ∧
    ∀ i j bi bj, md.topological_order.get? i = some bi →
      md.topological_order.get? j = some bj → nB ∈ bi → nA ∈ bj → i < j := by
  rcases computeWorkflowMetadata_ok hm with ⟨_, htop, _, hgraph, _⟩
  have hne : nA ≠ nB := by
    intro he
    apply hacyc nA
    apply Relation.TransGen.single
    nth_rewrite 2 [he]
    exact hedge
  have hedge' : strictEdge (buildGraph w.jobs) nA nB :=
    ⟨by rw [← hgraph]; exact hedge, hne⟩
  have hfacts := toposort_strictEdge_facts (nodup_keysOf_buildGraph w.jobs)
    htop hedge'
  exact ⟨hfacts.1, hfacts.2.1,
    fun i j bi bj h1 h2 h3 h4 => hfacts.2.2 h1 h2 h3 h4⟩

/-- C2 witness: the two-job chain B → A.  The computation succeeds, the
graph is acyclic, B depends on A, and A's batch (index 0) comes strictly
before B's batch (index 1). -/
theorem c2_witness :
    computeWorkflowMetadata wfLin = .ok (mdLin, wfLinDone) ∧
    (∀ n : Node, ¬ Relation.TransGen (graphEdge mdLin.graph) n n) ∧
    graphEdge mdLin.graph nodeB nodeA ∧
    ((∃ i bi, mdLin.topological_order.get? i = some bi ∧ nodeA ∈ bi) ∧
     (∃ j bj, mdLin.topological_order.get? j = some bj ∧ nodeB ∈ bj) ∧
     ∀ i j bi bj, mdLin.topological_order.get? i = some bi →
       mdLin.topological_order.get? j = some bj → nodeA ∈ bi → nodeB ∈ bj →
       i < j) :=
  ⟨by decide,
   fun n => transGen_irrefl_of_pair (by decide) graphEdge_wfLin_pair n,
   by decide,
   c2_dependency_batch_order wfLin mdLin wfLinDone (by decide)
     (fun n => transGen_irrefl_of_pair (by decide) graphEdge_wfLin_pair n)
     nodeB nodeA (by decide)⟩

/-- C3: during batch execution, the moment at least one job of a batch
reports FAILED or UNDETERMINED, the poll pass issues a kill to every job
of that batch (the `errored` outcome carries the whole batch as the
killed list), the raised error names exactly the jobs of the batch in a
failed or undetermined state, and no job of any subsequent batch is ever
started: the run's started list ends with the failing batch, whatever
batches follow. -/
theorem c3_batch_failure_aborts (status : Job → JobStatus)
    (pre : List (List Job)) (b : List Job) (post : List (List Job))
    (hpre : ∀ batch ∈ pre, ∀ j ∈ batch, status j = .FINISHED)
    (hb : ∃ j ∈ b, jobErrored (status j) = true) :
    executeAndWaitPoll status b = .errored b (erroredNames status b) ∧
    (∀ n, n ∈ erroredNames status b ↔
      ∃ j ∈ b, jobErrored (status j) = true ∧ j.name = n) ∧
    runBatches status (pre ++ b :: post) =
      .failed (pre.flatten ++ b) (erroredNames status b) :=
  ⟨executeAndWaitPoll_errored hb,
   fun _ => mem_erroredNames,
   runBatches_failed_at pre b post hpre hb⟩

/-- C3 witness: batch [P, Q] where P finishes and Q fails, with a later
batch [R]: the poll kills the whole batch, the error names exactly Q,
and R is never started. -/
theorem c3_witness :
    (∀ batch ∈ ([] : List (List Job)), ∀ j ∈ batch,
        statusQFail j = .FINISHED) ∧
    (∃ j ∈ [jobP, jobQ], jobErrored (statusQFail j) = true) ∧
    (executeAndWaitPoll statusQFail [jobP, jobQ] =
        .errored [jobP, jobQ] (erroredNames statusQFail [jobP, jobQ]) ∧
     (∀ n, n ∈ erroredNames statusQFail [jobP, jobQ] ↔
        ∃ j ∈ [jobP, jobQ], jobErrored (statusQFail j) = true ∧ j.name = n) ∧
     runBatches statusQFail ([] ++ [jobP, jobQ] :: [[jobR]]) =
        .failed (List.flatten [] ++ [jobP, jobQ])
          (erroredNames statusQFail [jobP, jobQ])) :=
  ⟨by decide, by decide,
   c3_batch_failure_aborts statusQFail [] [jobP, jobQ] [[jobR]]
     (by decide) (by decide)⟩

/-- C4 counterexample: a workflow whose dependency graph contains a
cycle — the self-loop S → S — for which `run()` does NOT fail with a
cyclic-dependency error: the `toposort` library silently discards
self-dependencies, a batch sequence is produced, and job S is started
and the run returns.  This falsifies the claim as stated. -/
theorem c4_counterexample_self_loop :
    graphEdge (buildGraph wfSelf.jobs) nodeS nodeS ∧
    computeWorkflowMetadata wfSelf ≠ .error .cyclicDependency ∧
    (Workflow.run wfSelf statusAllFin 1).1 = .returned ∧
    (Workflow.run wfSelf statusAllFin 1).2.1 = [jobS] := by
  refine ⟨by decide, by decide, by decide, by decide⟩

/-- C4 (amended): for every workflow (with metadata not yet computed)
whose dependency graph contains a cycle through dependency edges between
distinct nodes (a cycle not consisting solely of silently-discarded
self-dependencies), `run()` fails with the cyclic-dependency error
during metadata computation, no batch sequence is produced (the
metadata stays unset and the instance is returned unchanged), and no
job's start operation is ever invoked (the started list is empty). -/
theorem c4_cycle_detected (w : Workflow) (hnone : w._metadata = none)
    (hcyc : ∃ n : Node,
      Relation.TransGen (strictEdge (buildGraph w.jobs)) n n) :
    computeWorkflowMetadata w = .error .cyclicDependency ∧
    ∀ status fuel, Workflow.run w status fuel =
      (.raised .cyclicDependency, [], w) := by
  rcases hcyc with ⟨n, ht⟩
  have herr : toposort (buildGraph w.jobs) = .error () := by
    cases htt : toposort (buildGraph w.jobs) with
    | error e =>
      cases e
      rfl
    | ok batches =>
      exact absurd ht
        (toposort_ok_no_cycle (nodup_keysOf_buildGraph w.jobs) htt n)
  have hcomp := computeWorkflowMetadata_cyclic hnone herr
  exact ⟨hcomp, fun status fuel => run_of_compute_error hcomp status fuel⟩

/-- C4 witness: the two-node cycle A → B → A is detected: metadata
computation raises the cyclic-dependency error and `run` starts no job
and leaves the instance unchanged. -/
theorem c4_witness :
    wfCyc._metadata = none ∧
    (∃ n : Node,
      Relation.TransGen (strictEdge (buildGraph wfCyc.jobs)) n n) ∧
    computeWorkflowMetadata wfCyc = .error .cyclicDependency ∧
    Workflow.run wfCyc statusAllFin 3 = (.raised .cyclicDependency, [], wfCyc) := by
  have h1 : strictEdge (buildGraph wfCyc.jobs) nodeA nodeB := by decide
  have h2 : strictEdge (buildGraph wfCyc.jobs) nodeB nodeA := by decide
  have hcyc : ∃ n : Node,
      Relation.TransGen (strictEdge (buildGraph wfCyc.jobs)) n n :=
    ⟨nodeA, Relation.TransGen.tail (Relation.TransGen.single h1) h2⟩
  exact ⟨rfl, hcyc, (c4_cycle_detected wfCyc rfl hcyc).1,
    (c4_cycle_detected wfCyc rfl hcyc).2 statusAllFin 3⟩

/-- C5: metadata is computed exactly once.  After a successful
computation, the instance's metadata reads back as the computed value, a
second computation attempt (and hence a second `run()`) fails with the
already-computed error before starting any job and leaves the instance
unchanged, and every attempt to set the metadata property again fails
with the setter's immutability error. -/
theorem c5_metadata_computed_once (w : Workflow) (md : Metadata)
    (w' : Workflow) (hm : computeWorkflowMetadata w = .ok (md, w')) :
    Workflow.metadata w' = some md ∧
    computeWorkflowMetadata w' = .error .metadataAlreadyComputed ∧
    (∀ status fuel, Workflow.run w' status fuel =
      (.raised .metadataAlreadyComputed, [], w')) ∧
    ∀ v, setMetadata w' v = .error .metadataImmutable := by
  rcases computeWorkflowMetadata_ok hm with ⟨_, _, _, _, hw'⟩
  subst hw'
  refine ⟨rfl, computeWorkflowMetadata_already rfl, ?_, ?_⟩
  · intro status fuel
    exact run_of_compute_error (computeWorkflowMetadata_already rfl) status fuel
  · intro v
    rfl

/-- C5 witness: after the first computation on the two-job chain, the
metadata reads back, recomputation and a second `run()` fail with the
already-computed error, and the setter rejects any further value. -/
theorem c5_witness :
    computeWorkflowMetadata wfLin = .ok (mdLin, wfLinDone) ∧
    (Workflow.metadata wfLinDone = some mdLin ∧
     computeWorkflowMetadata wfLinDone = .error .metadataAlreadyComputed ∧
     Workflow.run wfLinDone statusAllFin 1 =
       (.raised .metadataAlreadyComputed, [], wfLinDone) ∧
     setMetadata wfLinDone mdLin = .error .metadataImmutable) := by
  have h := c5_metadata_computed_once wfLin mdLin wfLinDone (by decide)
  exact ⟨by decide, h.1, h.2.1, h.2.2.1 statusAllFin 1, h.2.2.2 mdLin⟩

/-- C6: with the loop flag set, `run()` repeats the full batch sequence
unboundedly — when every job of every batch reports FINISHED, the pass
loop is still running after any number of passes, so `run()` never
returns — while a failing pass terminates the run with the batch-failure
error carrying the errored names, irrespective of the loop flag (no
hypothesis on the flag is needed). -/
theorem c6_loop_semantics (w : Workflow) (md : Metadata) (w' : Workflow)
    (status : Job → JobStatus)
    (hm : computeWorkflowMetadata w = .ok (md, w')) :
    (w._loop = true →
      (∀ b ∈ batchesOf md, ∀ j ∈ b, status j = .FINISHED) →
      ∀ n, (Workflow.run w status n).1 = .running) ∧
    (∀ s names, runBatches status (batchesOf md) = .failed s names →
      ∀ n, (Workflow.run w status (n + 1)).1 =
        .raised (.batchFailure names)) := by
  constructor
  · intro hloop hfin n
    have hok := runBatches_all_finished (batchesOf md) hfin
    rw [run_of_compute_ok hm status n]
    show (runPasses status w._loop (batchesOf md) n).1 = .running
    rw [hloop]
    exact runPasses_loop_running hok n
  · intro s names hfail n
    rw [run_of_compute_ok hm status (n + 1)]
    show (runPasses status w._loop (batchesOf md) (n + 1)).1 =
      .raised (.batchFailure names)
    rw [runPasses_failed hfail w._loop n]

/-- C6 witness: on the looping two-job chain with every job finishing,
`run` is still running after 7 passes; with job A failing, `run` raises
the batch failure naming A — both with the loop flag set and (on the
non-looping variant) with it clear. -/
theorem c6_witness :
    computeWorkflowMetadata wfLinLoop = .ok (mdLin, wfLinLoopDone) ∧
    wfLinLoop._loop = true ∧
    (∀ b ∈ batchesOf mdLin, ∀ j ∈ b, statusAllFin j = .FINISHED) ∧
    (Workflow.run wfLinLoop statusAllFin 7).1 = .running ∧
    runBatches statusAFail (batchesOf mdLin) = .failed [jobA] ["A"] ∧
    (Workflow.run wfLinLoop statusAFail (2 + 1)).1 =
      .raised (.batchFailure ["A"]) ∧
    (Workflow.run wfLin statusAFail (0 + 1)).1 =
      .raised (.batchFailure ["A"]) :=
  ⟨by decide, rfl, by decide,
   (c6_loop_semantics wfLinLoop mdLin wfLinLoopDone statusAllFin
      (by decide)).1 rfl (by decide) 7,
   by decide,
   (c6_loop_semantics wfLinLoop mdLin wfLinLoopDone statusAFail
      (by decide)).2 [jobA] ["A"] (by decide) 2,
   (c6_loop_semantics wfLin mdLin wfLinDone statusAFail
      (by decide)).2 [jobA] ["A"] (by decide) 0⟩

/-- C7 counterexample: node equality is NOT determined by names alone.
In `wfTwoC` the graph holds the dependency nodes for two distinct job
objects that share the name "C": the two nodes have equal names yet are
different nodes of the graph, so a dependency reference and a
registration under the same name need not resolve to one logical node. -/
theorem c7_counterexample_same_name_distinct :
    graphEdge (buildGraph wfTwoC.jobs) nodeA nodeC ∧
    graphEdge (buildGraph wfTwoC.jobs) nodeB nodeC2 ∧
    nodeC.name = nodeC2.name ∧ nodeC ≠ nodeC2 := by
  refine ⟨by decide, by decide, by decide, by decide⟩

/-- C7 (amended): two nodes are equal iff their names AND their job
objects are equal (namedtuple equality is componentwise, with jobs
compared by object identity); in particular, when the very same job
object is both registered and referenced as a dependency, the two
references resolve to the same logical node: in `wfShared` the node for
the registration of `jobC` (a graph key with its own dependency set) is
the identical node value found in B's dependency set. -/
theorem c7_node_equality_componentwise (n m : Node) :
    (n = m ↔ n.name = m.name ∧ n.job = m.job) ∧
    (graphEdge (buildGraph wfShared.jobs) nodeB nodeC ∧
     assocGet (buildGraph wfShared.jobs) nodeC = [nodeA]) := by
  constructor
  · constructor
    · intro h
      rw [h]
      exact ⟨rfl, rfl⟩
    · rintro ⟨h1, h2⟩
      calc n = ⟨n.name, n.job⟩ := rfl
        _ = ⟨m.name, m.job⟩ := by rw [h1, h2]
        _ = m := rfl
  · exact ⟨by decide, by decide⟩

/-- C7 witness: instantiating the componentwise equality at the two
same-named nodes, together with the shared-object resolution facts. -/
theorem c7_witness :
    (nodeC = nodeC2 ↔ nodeC.name = nodeC2.name ∧ nodeC.job = nodeC2.job) ∧
    (graphEdge (buildGraph wfShared.jobs) nodeB nodeC ∧
     assocGet (buildGraph wfShared.jobs) nodeC = [nodeA]) :=
  ⟨(c7_node_equality_componentwise nodeC nodeC2).1,
   (c7_node_equality_componentwise nodeC nodeC2).2⟩

/-- C8 counterexample: reading the metadata property of a freshly
constructed workflow does not fail — the getter silently returns the
null value (`None`), contrary to the claim that the read fails with an
error. -/
theorem c8_counterexample_read_yields_none :
    Workflow.metadata (Workflow.init "w" false) = none := by decide

/-- C8 (amended): reading the metadata property before the first run
silently yields `None`; the protection the source actually provides is
on writes — the property is settable only once, and once a value is
stored any further set attempt fails with the immutability error. -/
theorem c8_metadata_read_and_write_once (name : String) (loop : Bool) :
    Workflow.metadata (Workflow.init name loop) = none ∧
    ∀ w v w', setMetadata w v = .ok w' →
      ∀ v', setMetadata w' v' = .error .metadataImmutable := by
  refine ⟨rfl, ?_⟩
  intro w v w' h v'
  cases hw : w._metadata with
  | some m => simp [setMetadata, hw] at h
  | none =>
    simp only [setMetadata, hw, Except.ok.injEq] at h
    rw [← h]
    rfl

/-- C8 witness: a fresh workflow reads `none`; a first set succeeds and
the second fails. -/
theorem c8_witness :
    Workflow.metadata (Workflow.init "w" true) = none ∧
    setMetadata (Workflow.init "w" true) mdLin =
      .ok { Workflow.init "w" true with _metadata := some mdLin } ∧
    setMetadata { Workflow.init "w" true with _metadata := some mdLin }
      mdLin = .error .metadataImmutable :=
  ⟨(c8_metadata_read_and_write_once "w" true).1, by decide,
   (c8_metadata_read_and_write_once "w" true).2 (Workflow.init "w" true)
     mdLin { Workflow.init "w" true with _metadata := some mdLin }
     (by decide) mdLin⟩

/-- C9: registering a second job under an already-registered name fails
with the duplicate-job error, raised before the registry is touched, so
the first registration — its job object and dependency list — is still
found unchanged in the registry afterwards. -/
theorem c9_duplicate_rejected (w : Workflow) (j1 : Job) (d1 : List Job)
    (w1 : Workflow) (j2 : Job) (d2 : List Job)
    (h1 : Workflow.add_job w j1 d1 = .ok w1) (hname : j2.name = j1.name) :
    Workflow.add_job w1 j2 d2 = .error (.duplicateJob j2.name) ∧
    jobsLookup w1.jobs j1.name = some ⟨j1, d1⟩ := by
  rcases add_job_ok h1 with ⟨hnone, hw1⟩
  subst hw1
  have hlook : jobsLookup (w.jobs ++ [(j1.name, ⟨j1, d1⟩)]) j1.name =
      some ⟨j1, d1⟩ := jobsLookup_append_right hnone _
  refine ⟨?_, hlook⟩
  unfold Workflow.add_job
  rw [hname]
  simp [hlook]

/-- C9 witness: registering `jobA`, then a distinct object with the same
name: the second registration fails and the first entry is intact. -/
theorem c9_witness :
    Workflow.add_job (Workflow.init "w" false) jobA [] = .ok wf9 ∧
    jobA2.name = jobA.name ∧
    Workflow.add_job wf9 jobA2 [jobB] = .error (.duplicateJob jobA2.name) ∧
    jobsLookup wf9.jobs jobA.name = some ⟨jobA, []⟩ :=
  ⟨by decide, rfl,
   (c9_duplicate_rejected (Workflow.init "w" false) jobA [] wf9 jobA2 [jobB]
      (by decide) rfl).1,
   (c9_duplicate_rejected (Workflow.init "w" false) jobA [] wf9 jobA2 [jobB]
      (by decide) rfl).2⟩

/-- C10: a failing metadata computation (here: a cyclic graph) leaves
the workflow state unchanged: the raise happens while forcing the
`toposort` generator, before the setter runs, so the stored metadata
stays unset, the metadata property still reads `None`, `run()` returns
the instance unmodified, and a later attempt on the same instance fails
with the cyclic error again — never with the already-computed guard. -/
theorem c10_failed_computation_leaves_state (w : Workflow)
    (hnone : w._metadata = none)
    (hcyc : toposort (buildGraph w.jobs) = .error ()) :
    computeWorkflowMetadata w = .error .cyclicDependency ∧
    Workflow.metadata w = none ∧
    (∀ status fuel, Workflow.run w status fuel =
      (.raised .cyclicDependency, [], w)) ∧
    computeWorkflowMetadata w ≠ .error .metadataAlreadyComputed := by
  have hcomp := computeWorkflowMetadata_cyclic hnone hcyc
  refine ⟨hcomp, ?_,
    fun status fuel => run_of_compute_error hcomp status fuel, ?_⟩
  · simp [Workflow.metadata, hnone]
  · rw [hcomp]
    decide

/-- C10 witness: the cyclic workflow A → B → A: computation fails, the
metadata still reads `None`, `run` leaves the instance unchanged, and
the error is the cyclic one, not the already-computed guard. -/
theorem c10_witness :
    wfCyc._metadata = none ∧
    toposort (buildGraph wfCyc.jobs) = .error () ∧
    (computeWorkflowMetadata wfCyc = .error .cyclicDependency ∧
     Workflow.metadata wfCyc = none ∧
     Workflow.run wfCyc statusQFail 2 = (.raised .cyclicDependency, [], wfCyc) ∧
     computeWorkflowMetadata wfCyc ≠ .error .metadataAlreadyComputed) := by
  have h := c10_failed_computation_leaves_state wfCyc rfl (by decide)
  exact ⟨rfl, by decide, h.1, h.2.1, h.2.2.1 statusQFail 2, h.2.2.2⟩
